import Mathlib

/-!
# Verification of `livegrep-gitlab-reindex`

A shallow embedding of `src/cmd/livegrep-gitlab-reindex/main.go`:
the discovery → filter → sort → specification-build → serialize pipeline.
Pure Go functions become Lean functions; the paginated GitLab listing
service is a parameter (a function from page number to a response);
fallible operations return `Except`/`Option`. String splitting is
embedded structurally over the character list (Go's `strings.Split`
with a one-character separator), and string comparison is Lean's
code-point lexicographic order, which coincides with Go's byte-wise
(UTF-8) lexicographic string order.
-/

namespace LivegrepGitlabReindex

/-- The fork-parent reference carried by a forked project
(`gitlab.ForkedFromProject`): only its namespace-qualified path is
consulted by this program (for the informational log line). -/
structure ForkParent where
  pathWithNamespace : String
deriving DecidableEq

/-- A repository descriptor (`gitlab.Project`), restricted to the fields
this program reads: namespace-qualified path, the SSH and HTTPS clone
URLs, the web URL, the archived flag, and the optional fork-parent
reference (present exactly when the project is a fork). -/
structure Project where
  pathWithNamespace : String
  sshURLToRepo : String
  httpURLToRepo : String
  webURL : String
  archived : Bool
  forkedFromProject : Option ForkParent
deriving DecidableEq

/-- `config.Metadata` fields populated by `buildConfig`. -/
structure Metadata where
  github : String
  remote : String
  urlPattern : String
deriving DecidableEq

/-- `config.CloneOptions` fields populated by `buildConfig`. -/
structure CloneOptions where
  depth : Int
  username : String
  passwordEnv : String
deriving DecidableEq

/-- One `config.RepoSpec` entry of the generated specification. -/
structure RepoSpec where
  path : String
  name : String
  revisions : List String
  metadata : Metadata
  cloneOptions : CloneOptions
deriving DecidableEq

/-- The root `config.IndexSpec` artifact. -/
structure IndexSpec where
  name : String
  repositories : List RepoSpec
deriving DecidableEq

/-- The global flags read by the embedded stages (`buildConfig` reads
`*flagSkipMissing`, `*flagHTTP`, `*flagGitlabToken`, `*flagUrlPattern`,
`*flagHTTPUsername`, `*flagDepth`). -/
structure Flags where
  skipMissing : Bool
  http : Bool
  gitlabToken : String
  urlPattern : String
  httpUsername : String
  depth : Int
deriving DecidableEq

/-! ## Strings: splitting

Go's `strings.Split(s, sep)` is used with the one-character separators
`"\n"` (`loadIgnorelist`) and `"/"` (inside `path.Clean`); for a
one-character separator it cuts the string at every occurrence of that
character, keeping empty pieces. -/

/-- `strings.Split` on a one-character separator, over the character
list: `[]` yields the single empty piece, a separator starts a new
piece, anything else extends the current first piece. -/
def splitOnChar (sep : Char) : List Char → List (List Char)
  | [] => [[]]
  | c :: cs =>
    let rest := splitOnChar sep cs
    if c = sep then [] :: rest
    else
      match rest with
      | [] => [[c]]
      | piece :: pieces => (c :: piece) :: pieces

/-- `strings.Split` on a one-character separator, on strings. -/
def splitStr (sep : Char) (s : String) : List String :=
  (splitOnChar sep s.data).map String.mk

/-! ## Go `path.Clean` / `path.Join`

`buildConfig` computes `RepoSpec.Path` with Go's
`path.Join(dir, r.PathWithNamespace)`, which is `Clean` applied to the
"/"-join of the elements starting at the first non-empty one. `Clean` is
Go's lexical cleaning: collapse repeated slashes, drop `.` elements,
resolve `..` against the preceding element (a `..` with nothing before
it is kept in relative paths and dropped in rooted ones). -/

/-- One pass of Go `path.Clean` over the slash-separated segments.
`stack` holds the already-emitted segments in reverse order. -/
def cleanSegsAux (rooted : Bool) : List String → List String → List String
  | stack, [] => stack.reverse
  | stack, e :: rest =>
    let stack' :=
      if e = "" || e = "." then stack
      else if e = ".." then
        match stack with
        | [] => if rooted then [] else [".."]
        | top :: stk => if top = ".." then ".." :: top :: stk else stk
      else e :: stack
    cleanSegsAux rooted stack' rest

/-- Go `path.Clean`. -/
def pathClean (p : String) : String :=
  if p = "" then "."
  else
    let rooted := p.data.head? = some '/'
    let segs := cleanSegsAux rooted [] (splitStr '/' p)
    let out := String.intercalate ("/") segs
    if rooted then "/" ++ out
    else if out = "" then "." else out

/-- Go `path.Join`: skip leading empty elements, join the rest with "/",
and `Clean` the result; all-empty input yields the empty string. -/
def pathJoin (elems : List String) : String :=
  match elems.dropWhile (· = "") with
  | [] => ""
  | es => pathClean (String.intercalate ("/") es)

/-! ## Ignore list (`loadIgnorelist`) -/

/-- `loadIgnorelist`, applied to the file's content: Go splits the bytes
on `"\n"` (`strings.Split`) and inserts every resulting line — verbatim,
no trimming — into a `map[string]struct{}`. Only membership in that map
is ever consulted, so the set is embedded as the list of lines. -/
def loadIgnorelist (data : String) : List String :=
  splitStr '\n' data

/-! ## Repository filter (`filterRepos`) -/

/-- The keep-decision of `filterRepos`'s loop body for one descriptor:
dropped when `excludeForks` is set and the descriptor carries a
fork-parent reference; otherwise dropped when an ignore set is present
and the namespace-qualified path is a member; otherwise kept. -/
def keepRepo (ignorelist : Option (List String)) (excludeForks : Bool)
    (r : Project) : Bool :=
  if excludeForks && r.forkedFromProject.isSome then false
  else
    match ignorelist with
    | some ig => !(ig.contains r.pathWithNamespace)
    | none => true

/-- `filterRepos`: iterate the descriptors in discovery order, keeping
the survivors of `keepRepo`. The `excludeArchived` argument is accepted
but never read by the function body (archived exclusion happens upstream
in the API query). -/
def filterRepos (repos : List Project) (ignorelist : Option (List String))
    (excludeForks : Bool) (excludeArchived : Bool) : List Project :=
  let _ := excludeArchived
  repos.filter (keepRepo ignorelist excludeForks)

/-! ## Sort (`sort.Sort(ReposByName(repos))`) -/

/-- The order induced by `ReposByName.Less` (comparison of
`PathWithNamespace` strings): `a` may precede `b` iff `a`'s path is not
greater. Lean's string order is code-point lexicographic, which agrees
with Go's byte-wise comparison of their UTF-8 encodings. -/
def repoLE (a b : Project) : Prop :=
  a.pathWithNamespace ≤ b.pathWithNamespace

instance : DecidableRel repoLE := fun a b =>
  inferInstanceAs (Decidable (a.pathWithNamespace ≤ b.pathWithNamespace))

instance : IsTotal Project repoLE :=
  ⟨fun a b => le_total a.pathWithNamespace b.pathWithNamespace⟩

instance : IsTrans Project repoLE :=
  ⟨fun _ _ _ hab hbc => le_trans hab hbc⟩

/-- `sort.Sort(ReposByName(repos))`: a comparison sort of the
descriptors by `PathWithNamespace`, embedded as insertion sort over
`repoLE` (Go's unstable sort and this one agree up to the order of
descriptors with equal paths, which `Less` leaves unspecified). -/
def sortReposByName (repos : List Project) : List Project :=
  List.insertionSort repoLE repos

/-! ## Specification builder (`buildConfig`) -/

/-- The `RepoSpec` literal that `buildConfig`'s loop appends for one
surviving descriptor. -/
def mkRepoSpec (flags : Flags) (dir : String) (revision : String)
    (r : Project) : RepoSpec :=
  let remote := if flags.http then r.httpURLToRepo else r.sshURLToRepo
  let password_env := if flags.gitlabToken ≠ "" then "GITLAB_TOKEN" else ""
  { path := pathJoin [dir, r.pathWithNamespace]
    name := r.pathWithNamespace
    revisions := [revision]
    metadata :=
      { github := r.webURL
        remote := remote
        urlPattern := flags.urlPattern }
    cloneOptions :=
      { depth := flags.depth
        username := flags.httpUsername
        passwordEnv := password_env } }

/-- `buildConfig` up to serialization: the `IndexSpec` value assembled by
the loop. When the skip-missing policy is on, a descriptor is kept only
if the configured revision resolves in its local clone; that check shells
out to `git rev-parse` (outside this program), so it enters as the oracle
`revOk`. -/
def buildConfig (flags : Flags) (revOk : Project → Bool) (name : String)
    (dir : String) (repos : List Project) (revision : String) : IndexSpec :=
  { name := name
    repositories :=
      repos.filterMap fun r =>
        if flags.skipMissing && !(revOk r) then none
        else some (mkRepoSpec flags dir revision r) }

/-! ## Discovery (`loadRepos`)

The GitLab client is external; its pagination contract (request carries a
page number, response carries items plus a next-page indicator, `0`
meaning none) enters as a function from page number to a response.
`loadRepos` loops until the indicator is `0`; the Go loop has no bound,
so the embedding carries fuel, and `none` stands for the loop still
running when the fuel runs out. -/

/-- One pagination sweep (the inner `for` loop of `loadRepos`): fetch
`page`, abort with the error if the fetch fails, otherwise accumulate the
items and continue with `resp.NextPage` until it is `0`. -/
def fetchPages {E P : Type} (fetch : Nat → Except E (List P × Nat)) :
    Nat → Nat → Option (Except E (List P))
  | 0, _ => none
  | fuel + 1, page =>
    match fetch page with
    | .error e => some (.error e)
    | .ok (ps, next) =>
      if next = 0 then some (.ok ps)
      else
        match fetchPages fetch fuel next with
        | none => none
        | some (.error e) => some (.error e)
        | some (.ok rest) => some (.ok (ps ++ rest))

/-- The per-group outer loop of `loadRepos`: one full pagination sweep
per configured group, sequentially, each starting at page 1, results
concatenated without deduplication; the first error aborts everything. -/
def loadGroups {G E P : Type} (listGroupProjects : G → Nat → Except E (List P × Nat))
    (fuel : Nat) : List G → Option (Except E (List P))
  | [] => some (.ok [])
  | g :: gs =>
    match fetchPages (listGroupProjects g) fuel 1 with
    | none => none
    | some (.error e) => some (.error e)
    | some (.ok ps) =>
      match loadGroups listGroupProjects fuel gs with
      | none => none
      | some (.error e) => some (.error e)
      | some (.ok rest) => some (.ok (ps ++ rest))

/-- `loadRepos`: when groups are configured, sweep each group in turn;
otherwise one sweep of the global "all accessible projects" listing
(whose query carries the archived filter upstream). -/
def loadRepos {G E P : Type} (groups : List G)
    (listGroupProjects : G → Nat → Except E (List P × Nat))
    (listProjects : Nat → Except E (List P × Nat))
    (fuel : Nat) : Option (Except E (List P)) :=
  if groups.length > 0 then loadGroups listGroupProjects fuel groups
  else fetchPages listProjects fuel 1

/-- A listing service honouring the pagination contract: page `p`
(1-based) answers the `p`-th element of `pages`, with next-page indicator
`p + 1`, or the sentinel `0` on the last page (and on any out-of-range
request). Never errors. -/
def pagedService {E P : Type} (pages : List (List P)) (page : Nat) :
    Except E (List P × Nat) :=
  .ok (pages.getD (page - 1) [], if page < pages.length then page + 1 else 0)

/-- `pagedService` with an error injected at page `k`. -/
def pagedServiceErr {E P : Type} (pages : List (List P)) (e : E) (k : Nat)
    (page : Nat) : Except E (List P × Nat) :=
  if page = k then .error e else pagedService pages page

/-! ## Serializer (`json.MarshalIndent` + `writeConfig`)

Modelled from the spec: the serialization of `config.IndexSpec` is
`json.MarshalIndent(cfg, "", "  ")` over the proto-generated config
structs, whose Go source is not part of this repository's visible tree;
§4.5/§6 of the spec describe it as a two-space-indented structured
(JSON) rendering of the IndexSpec/RepoSpec fields of §3. -/

/-- JSON string escaping (quote and backslash; the fields serialized here
are paths, names and URLs). -/
def jsonEscape (s : String) : String :=
  String.join (s.data.map fun c =>
    if c = '"' then "\\\"" else if c = '\\' then "\\\\" else String.singleton c)

/-- A JSON string literal. -/
def jsonStr (s : String) : String :=
  "\"" ++ jsonEscape s ++ "\""

/-- Modelled from the spec: two-space-indented JSON rendering of one
`RepoSpec` (§3's fields: local path, display name, revisions, metadata,
clone options). -/
def serializeRepoSpec (r : RepoSpec) : String :=
  "    \x7b\n      \"Path\": " ++ jsonStr r.path ++
  ",\n      \"Name\": " ++ jsonStr r.name ++
  ",\n      \"Revisions\": [" ++
    String.intercalate (", ") (r.revisions.map jsonStr) ++
  "],\n      \"Metadata\": \x7b\n        \"Github\": " ++ jsonStr r.metadata.github ++
  ",\n        \"Remote\": " ++ jsonStr r.metadata.remote ++
  ",\n        \"UrlPattern\": " ++ jsonStr r.metadata.urlPattern ++
  "\n      \x7d,\n      \"CloneOptions\": \x7b\n        \"Depth\": " ++ toString r.cloneOptions.depth ++
  ",\n        \"Username\": " ++ jsonStr r.cloneOptions.username ++
  ",\n        \"PasswordEnv\": " ++ jsonStr r.cloneOptions.passwordEnv ++
  "\n      \x7d\n    \x7d"

/-- Modelled from the spec: two-space-indented JSON rendering of the
whole `IndexSpec` — the bytes `writeConfig` persists. -/
def serializeIndexSpec (cfg : IndexSpec) : String :=
  "\x7b\n  \"Name\": " ++ jsonStr cfg.name ++
  ",\n  \"Repositories\": [\n" ++
    String.intercalate (",\n") (cfg.repositories.map serializeRepoSpec) ++
  "\n  ]\n\x7d"

/-- `small` is a contiguous run of `big` starting at its head. -/
def headRunOf (big small : List Char) : Bool :=
  match small, big with
  | [], _ => true
  | _ :: _, [] => false
  | a :: as, b :: bs => a = b && headRunOf bs as

/-- `needle` occurs contiguously somewhere in the haystack. -/
def strContainsAux (needle : List Char) : List Char → Bool
  | [] => headRunOf [] needle
  | c :: cs => headRunOf (c :: cs) needle || strContainsAux needle cs

/-- `sub` occurs contiguously in `s` (byte-for-byte, at some offset). -/
def strContains (s sub : String) : Bool :=
  strContainsAux sub.data s.data

/-! ## Concrete sample values for the witnesses -/

/-- A non-fork sample descriptor. -/
def sampleRepo : Project :=
  { pathWithNamespace := "teamA/svc"
    sshURLToRepo := "git@gitlab.example.com:teamA/svc.git"
    httpURLToRepo := "https://gitlab.example.com/teamA/svc.git"
    webURL := "https://gitlab.example.com/teamA/svc"
    archived := false
    forkedFromProject := none }

/-- A sample descriptor that is a fork. -/
def sampleFork : Project :=
  { pathWithNamespace := "teamA/legacy"
    sshURLToRepo := "git@gitlab.example.com:teamA/legacy.git"
    httpURLToRepo := "https://gitlab.example.com/teamA/legacy.git"
    webURL := "https://gitlab.example.com/teamA/legacy"
    archived := false
    forkedFromProject := some { pathWithNamespace := "teamA/base" } }

/-- A degenerate descriptor whose namespace-qualified path is empty. -/
def emptyPathRepo : Project :=
  { pathWithNamespace := ""
    sshURLToRepo := ""
    httpURLToRepo := ""
    webURL := ""
    archived := false
    forkedFromProject := none }

/-- Sample flag assignment: the program's defaults with no token. -/
def sampleFlags : Flags :=
  { skipMissing := false
    http := false
    gitlabToken := ""
    urlPattern := "https://gitlab.example.com/pattern"
    httpUsername := "git"
    depth := 0 }

/-! ## Helper lemmas -/

theorem filterMap_ite_eq_filter_map {α β : Type} (p : α → Bool) (g : α → β)
    (l : List α) :
    (l.filterMap fun a => if p a then none else some (g a))
      = (l.filter fun a => !(p a)).map g := by
  induction l with
  | nil => rfl
  | cons a l ih =>
    by_cases h : p a = true <;>
      simp [List.filterMap_cons, List.filter_cons, h, ih]

/-- The repositories of the built `IndexSpec` are exactly the surviving
descriptors (those passing the skip-missing check), each mapped through
`mkRepoSpec`, in order. -/
theorem buildConfig_repositories (flags : Flags) (revOk : Project → Bool)
    (name dir : String) (repos : List Project) (revision : String) :
    (buildConfig flags revOk name dir repos revision).repositories
      = (repos.filter fun r => !(flags.skipMissing && !(revOk r))).map
          (mkRepoSpec flags dir revision) :=
  filterMap_ite_eq_filter_map (fun r => flags.skipMissing && !(revOk r))
    (mkRepoSpec flags dir revision) repos

/-- `keepRepo` with an ignore set present: keep exactly when not dropped
as a fork and the namespace-qualified path is not a member of the set. -/
theorem keepRepo_some_iff (ig : List String) (ef : Bool) (r : Project) :
    keepRepo (some ig) ef r = true
      ↔ ((ef && r.forkedFromProject.isSome) = false
          ∧ r.pathWithNamespace ∉ ig) := by
  simp only [keepRepo]
  cases h : ef && r.forkedFromProject.isSome with
  | false => simp [List.contains]
  | true => simp

/-! ## Claims -/

/-- C1: for every ignore set and descriptor collection, the filtered
output contains no descriptor whose namespace-qualified path is a member
of the ignore set. -/
theorem filterRepos_output_disjoint_ignorelist
    (repos : List Project) (ig : List String) (ef ea : Bool) (r : Project)
    (hr : r ∈ filterRepos repos (some ig) ef ea) :
    r.pathWithNamespace ∉ ig := by
  simp only [filterRepos] at hr
  exact ((keepRepo_some_iff ig ef r).mp (List.mem_filter.mp hr).2).2

theorem filterRepos_output_disjoint_ignorelist_witness :
    sampleRepo ∈ filterRepos [sampleRepo] (some ["x/y"]) false false ∧
    sampleRepo.pathWithNamespace ∉ ["x/y"] :=
  ⟨by decide,
   filterRepos_output_disjoint_ignorelist [sampleRepo] ["x/y"] false false
     sampleRepo (by decide)⟩

/-- C5: with exclude-forks set, a descriptor carrying a fork-parent
reference never appears in the filtered output, whatever the ignore
set. -/
theorem filterRepos_excludes_forks (repos : List Project)
    (ignorelist : Option (List String)) (ea : Bool) (r : Project)
    (hfork : r.forkedFromProject.isSome = true) :
    r ∉ filterRepos repos ignorelist true ea := by
  intro hr
  simp only [filterRepos] at hr
  have h := (List.mem_filter.mp hr).2
  simp [keepRepo, hfork] at h

theorem filterRepos_excludes_forks_witness :
    sampleFork.forkedFromProject.isSome = true ∧
    sampleFork ∉ filterRepos [sampleFork] (some ["teamA/legacy"]) true false :=
  ⟨by decide,
   filterRepos_excludes_forks [sampleFork] (some ["teamA/legacy"]) false
     sampleFork (by decide)⟩

/-- C7: the filter's output does not depend on the exclude-archived
argument; archived status is never re-checked client-side. -/
theorem filterRepos_ignores_excludeArchived (repos : List Project)
    (ignorelist : Option (List String)) (ef ea₁ ea₂ : Bool) :
    filterRepos repos ignorelist ef ea₁ = filterRepos repos ignorelist ef ea₂ :=
  rfl

/-- C4: in the built specification, every entry's `Metadata.Remote` is
its descriptor's SSH clone URL, or the HTTPS clone URL exactly when the
HTTPS-preference flag is set. -/
theorem buildConfig_remote_protocol (flags : Flags) (revOk : Project → Bool)
    (name dir : String) (repos : List Project) (revision : String) :
    (buildConfig flags revOk name dir repos revision).repositories.map
        (fun rs => rs.metadata.remote)
      = (repos.filter fun r => !(flags.skipMissing && !(revOk r))).map
          (fun r => if flags.http then r.httpURLToRepo else r.sshURLToRepo) := by
  rw [buildConfig_repositories, List.map_map]
  rfl

/-- C10: the loaded ignore set is exactly the newline-separated lines of
the file, taken verbatim, and a descriptor that reaches the ignore check
is dropped iff its namespace-qualified path is byte-for-byte equal to
some line of the file. -/
theorem ignore_check_byte_equality (data : String) (repos : List Project)
    (ef ea : Bool) (r : Project) (hr : r ∈ repos)
    (hfork : (ef && r.forkedFromProject.isSome) = false) :
    (∀ s : String, s ∈ loadIgnorelist data ↔ s ∈ splitStr '\n' data) ∧
    (r ∈ filterRepos repos (some (loadIgnorelist data)) ef ea
      ↔ r.pathWithNamespace ∉ splitStr '\n' data) := by
  refine ⟨fun s => Iff.rfl, ?_⟩
  simp only [filterRepos]
  rw [List.mem_filter]
  constructor
  · intro h
    exact ((keepRepo_some_iff _ _ _).mp h.2).2
  · intro h
    exact ⟨hr, (keepRepo_some_iff _ _ _).mpr ⟨hfork, h⟩⟩

theorem ignore_check_byte_equality_witness :
    sampleRepo ∈ [sampleRepo, sampleFork] ∧
    ((false && sampleRepo.forkedFromProject.isSome) = false) ∧
    (sampleRepo ∈ filterRepos [sampleRepo, sampleFork]
        (some (loadIgnorelist ("teamA/legacy\nx/y"))) false false
      ↔ sampleRepo.pathWithNamespace ∉ splitStr '\n' ("teamA/legacy\nx/y")) :=
  ⟨by decide, by decide,
   (ignore_check_byte_equality ("teamA/legacy\nx/y") [sampleRepo, sampleFork]
      false false sampleRepo (by decide) (by decide)).2⟩

/-- C8 as stated is false: an ignore file consisting of one entirely
empty line (content `""`) excludes the descriptor whose namespace-
qualified path is empty; with empty lines removed from the loaded set,
the same descriptor survives. -/
theorem empty_line_can_exclude_cex :
    filterRepos [emptyPathRepo] (some (loadIgnorelist (""))) false false = []
    ∧ filterRepos [emptyPathRepo]
        (some ((loadIgnorelist ("")).filter (fun l => l ≠ ""))) false false
      = [emptyPathRepo] := by
  constructor <;> decide

/-- C8 amended: for descriptors whose namespace-qualified path is
non-empty, an entirely empty line in the ignore-list file never causes an
exclusion — filtering with the loaded set coincides with filtering with
all empty lines removed from it. -/
theorem empty_lines_never_match (data : String) (repos : List Project)
    (ef ea : Bool)
    (h : ∀ r ∈ repos, r.pathWithNamespace ≠ "") :
    filterRepos repos (some (loadIgnorelist data)) ef ea
      = filterRepos repos
          (some ((loadIgnorelist data).filter (fun l => l ≠ ""))) ef ea := by
  simp only [filterRepos]
  apply List.filter_congr
  intro r hr
  simp only [keepRepo]
  cases hf : ef && r.forkedFromProject.isSome with
  | true => rfl
  | false =>
    have hne := h r hr
    simp [List.contains, List.mem_filter, hne]

theorem empty_lines_never_match_witness :
    (∀ r ∈ [sampleRepo, sampleFork], r.pathWithNamespace ≠ "") ∧
    filterRepos [sampleRepo, sampleFork]
        (some (loadIgnorelist ("teamA/svc\n\n"))) false false
      = filterRepos [sampleRepo, sampleFork]
          (some ((loadIgnorelist ("teamA/svc\n\n")).filter (fun l => l ≠ "")))
          false false :=
  ⟨by decide,
   empty_lines_never_match ("teamA/svc\n\n") [sampleRepo, sampleFork]
     false false (by decide)⟩


/-- C6: when the descriptor collection is sorted before specification
building, the built `IndexSpec.Repositories` sequence is non-decreasing
in namespace-qualified path (lexicographic); the skip-missing filter
inside the builder preserves the order. -/
theorem indexSpec_sorted_by_name (flags : Flags) (revOk : Project → Bool)
    (name dir : String) (repos : List Project) (revision : String) :
    List.Pairwise (fun a b : RepoSpec => a.name ≤ b.name)
      (buildConfig flags revOk name dir (sortReposByName repos)
        revision).repositories := by
  rw [buildConfig_repositories]
  have hs : List.Pairwise repoLE (sortReposByName repos) :=
    List.sorted_insertionSort repoLE repos
  exact List.Pairwise.map _ (fun a b h => h) (hs.filter _)

/-- C2 as stated is false: two overlapping groups both containing the
same repository make `loadRepos` return it twice; the duplicate survives
the filter and the sort, and `buildConfig` emits two RepoSpecs with the
same Path. -/
theorem buildConfig_duplicate_path_cex :
    loadRepos ["groupA", "groupB"]
        (fun _ => pagedService (E := Unit) [[sampleRepo]])
        (pagedService []) 2
      = some (.ok [sampleRepo, sampleRepo]) ∧
    ¬ ((buildConfig sampleFlags (fun _ => true) "livegrep index" "repos"
          (sortReposByName
            (filterRepos [sampleRepo, sampleRepo] none false true))
          "HEAD").repositories.map RepoSpec.path).Nodup := by
  have hsort : sortReposByName (filterRepos [sampleRepo, sampleRepo] none false true)
      = [sampleRepo, sampleRepo] := by
    simp [sortReposByName, filterRepos, keepRepo, List.insertionSort,
      List.orderedInsert, repoLE]
  constructor
  · rfl
  · rw [hsort]
    decide

/-- C2 amended: each `RepoSpec.Path` is deterministic given the root
directory and the namespace-qualified path — it equals their Go
`path.Join` — and the Paths are unique whenever the surviving
descriptors' joined paths are pairwise distinct; duplicated descriptors
(as arise from overlapping groups, concatenated without deduplication)
are carried through and yield duplicate Paths. -/
theorem buildConfig_path_join_deterministic (flags : Flags)
    (revOk : Project → Bool) (name dir : String) (repos : List Project)
    (revision : String) :
    ((buildConfig flags revOk name dir repos revision).repositories.map
        RepoSpec.path
      = (repos.filter fun r => !(flags.skipMissing && !(revOk r))).map
          (fun r => pathJoin [dir, r.pathWithNamespace]))
    ∧ (((repos.filter fun r => !(flags.skipMissing && !(revOk r))).map
          (fun r => pathJoin [dir, r.pathWithNamespace])).Nodup →
        ((buildConfig flags revOk name dir repos revision).repositories.map
          RepoSpec.path).Nodup) := by
  have h1 : (buildConfig flags revOk name dir repos revision).repositories.map
        RepoSpec.path
      = (repos.filter fun r => !(flags.skipMissing && !(revOk r))).map
          (fun r => pathJoin [dir, r.pathWithNamespace]) := by
    rw [buildConfig_repositories, List.map_map]
    rfl
  exact ⟨h1, fun hnd => h1 ▸ hnd⟩

theorem buildConfig_path_join_deterministic_witness :
    (([sampleRepo, sampleFork].filter fun r =>
        !(sampleFlags.skipMissing && !((fun _ => true) r))).map
        (fun r => pathJoin ["repos", r.pathWithNamespace])).Nodup ∧
    ((buildConfig sampleFlags (fun _ => true) "livegrep index" "repos"
        [sampleRepo, sampleFork] "HEAD").repositories.map
      RepoSpec.path).Nodup :=
  ⟨by decide,
   (buildConfig_path_join_deterministic sampleFlags (fun _ => true)
      "livegrep index" "repos" [sampleRepo, sampleFork] "HEAD").2 (by decide)⟩

/-- The flag set of the C3 counterexample: the configured credential is
the string "GITLAB_TOKEN" itself. -/
def tokenFlags : Flags :=
  { sampleFlags with gitlabToken := "GITLAB_TOKEN" }

set_option maxRecDepth 100000 in
/-- C3 as stated is false on a degenerate credential: with configured
token "GITLAB_TOKEN" (a nonempty credential), the serialized bytes
contain the literal credential value, because the fixed
environment-variable name written into PasswordEnv coincides with it. -/
theorem serialized_contains_credential_cex :
    tokenFlags.gitlabToken ≠ "" ∧
    strContains
        (serializeIndexSpec (buildConfig tokenFlags (fun _ => true)
          "livegrep index" "repos" [sampleRepo] "HEAD"))
        tokenFlags.gitlabToken
      = true := by
  constructor
  · decide
  · decide

/-- C3 amended: the serialized bytes are independent of the configured
credential's value — any two configured (nonempty) credentials produce
byte-identical output — and every RepoSpec's CloneOptions.PasswordEnv is
the fixed name "GITLAB_TOKEN" exactly when a credential is configured
and "" otherwise; the credential never flows into the bytes, though the
bytes can coincidentally contain a string equal to it. -/
theorem serialized_credential_noninterference (flags : Flags)
    (t₁ t₂ : String) (revOk : Project → Bool) (name dir : String)
    (repos : List Project) (revision : String) :
    (t₁ ≠ "" → t₂ ≠ "" →
      serializeIndexSpec
          (buildConfig { flags with gitlabToken := t₁ } revOk name dir
            repos revision)
        = serializeIndexSpec
            (buildConfig { flags with gitlabToken := t₂ } revOk name dir
              repos revision))
    ∧ ∀ rs ∈ (buildConfig flags revOk name dir repos revision).repositories,
        rs.cloneOptions.passwordEnv
          = if flags.gitlabToken ≠ "" then "GITLAB_TOKEN" else "" := by
  constructor
  · intro h1 h2
    have hb : buildConfig { flags with gitlabToken := t₁ } revOk name dir
          repos revision
        = buildConfig { flags with gitlabToken := t₂ } revOk name dir
            repos revision := by
      simp only [buildConfig, mkRepoSpec]
      simp [h1, h2]
    rw [hb]
  · intro rs hrs
    rw [buildConfig_repositories] at hrs
    obtain ⟨r, _, rfl⟩ := List.mem_map.mp hrs
    rfl

theorem serialized_credential_noninterference_witness :
    ("s3cret" ≠ "") ∧ ("t0ken" ≠ "") ∧
    serializeIndexSpec
        (buildConfig { sampleFlags with gitlabToken := "s3cret" }
          (fun _ => true) "livegrep index" "repos" [sampleRepo] "HEAD")
      = serializeIndexSpec
          (buildConfig { sampleFlags with gitlabToken := "t0ken" }
            (fun _ => true) "livegrep index" "repos" [sampleRepo] "HEAD") :=
  ⟨by decide, by decide,
   (serialized_credential_noninterference sampleFlags "s3cret" "t0ken"
      (fun _ => true) "livegrep index" "repos" [sampleRepo] "HEAD").1
     (by decide) (by decide)⟩


/-! ## Pagination lemmas (for `loadRepos`) -/

/-- Walking `pagedService` from page `k + 1` accumulates exactly the
pages from index `k` on. -/
theorem fetchPages_pagedService {E P : Type} (pages : List (List P))
    (fuel : Nat) :
    ∀ k, pages.length - k < fuel →
      fetchPages (pagedService (E := E) pages) fuel (k + 1)
        = some (.ok (pages.drop k).flatten) := by
  induction fuel with
  | zero => intro k h; omega
  | succ fuel ih =>
    intro k h
    simp only [fetchPages, pagedService, Nat.add_sub_cancel]
    by_cases hk : k + 1 < pages.length
    · have hne : ¬ (k + 2 = 0) := by omega
      rw [if_pos hk, if_neg hne]
      have h12 : k + 2 = k + 1 + 1 := rfl
      rw [h12, ih (k + 1) (by omega)]
      have hdrop : pages.drop k = pages.get ⟨k, by omega⟩ :: pages.drop (k + 1) :=
        List.drop_eq_getElem_cons (by omega)
      simp only [List.getD_eq_getElem?_getD,
        List.getElem?_eq_getElem (by omega : k < pages.length),
        Option.getD_some, Option.some.injEq, Except.ok.injEq]
      rw [hdrop, List.flatten_cons, List.get_eq_getElem]
    · rw [if_neg hk]
      simp only [if_pos rfl]
      by_cases hk2 : k < pages.length
      · have hlen : pages.length = k + 1 := by omega
        have hdrop : pages.drop k = pages.get ⟨k, by omega⟩ :: pages.drop (k + 1) :=
          List.drop_eq_getElem_cons (by omega)
        rw [hdrop]
        have : pages.drop (k + 1) = [] := List.drop_eq_nil_of_le (by omega)
        rw [this]
        simp [List.getD_eq_getElem?_getD, List.getElem?_eq_getElem hk2]
      · have : pages.drop k = [] := List.drop_eq_nil_of_le (by omega)
        rw [this]
        simp [List.getD_eq_getElem?_getD, List.getElem?_eq_none (by omega : pages.length ≤ k)]

/-- The sweep that `loadRepos` starts at page 1 returns all pages'
items, concatenated in order. -/
theorem fetchPages_pagedService_one {E P : Type} (pages : List (List P))
    (fuel : Nat) (h : pages.length < fuel) :
    fetchPages (pagedService (E := E) pages) fuel 1
      = some (.ok pages.flatten) := by
  have := fetchPages_pagedService (E := E) pages fuel 0 (by omega)
  simpa using this

/-- Sweeping every group with a well-behaved paginated service
concatenates the groups' items in group order. -/
theorem loadGroups_pagedService {G E P : Type} (pagesOf : G → List (List P))
    (fuel : Nat) :
    ∀ groups : List G, (∀ g ∈ groups, (pagesOf g).length < fuel) →
      loadGroups (fun g => pagedService (E := E) (pagesOf g)) fuel groups
        = some (.ok (groups.map (fun g => (pagesOf g).flatten)).flatten) := by
  intro groups
  induction groups with
  | nil => intro _; rfl
  | cons g gs ih =>
    intro h
    simp only [loadGroups]
    rw [fetchPages_pagedService_one (pagesOf g) fuel (h g (by simp))]
    rw [ih (fun g' hg' => h g' (by simp [hg']))]
    simp

/-- An error result of a pagination sweep always originates from a page
fetch. -/
theorem fetchPages_error_src {E P : Type}
    (fetch : Nat → Except E (List P × Nat)) (fuel : Nat) :
    ∀ page e, fetchPages fetch fuel page = some (.error e) →
      ∃ p, fetch p = .error e := by
  induction fuel with
  | zero => intro page e h; simp [fetchPages] at h
  | succ fuel ih =>
    intro page e h
    simp only [fetchPages] at h
    split at h
    · next e' heq =>
      simp only [Option.some.injEq, Except.error.injEq] at h
      exact ⟨page, h ▸ heq⟩
    · next ps next heq =>
      split at h
      · simp at h
      · split at h
        · simp at h
        · next e' heq' =>
          simp only [Option.some.injEq, Except.error.injEq] at h
          exact h ▸ ih _ e' heq'
        · simp at h

/-- An error result of the per-group sweep always originates from a page
fetch of one of the groups. -/
theorem loadGroups_error_src {G E P : Type}
    (fg : G → Nat → Except E (List P × Nat)) (fuel : Nat) :
    ∀ (groups : List G) (e : E),
      loadGroups fg fuel groups = some (.error e) →
      ∃ g ∈ groups, ∃ p, fg g p = .error e := by
  intro groups
  induction groups with
  | nil => intro e h; simp [loadGroups] at h
  | cons g gs ih =>
    intro e h
    simp only [loadGroups] at h
    split at h
    · simp at h
    · next e' heq =>
      simp only [Option.some.injEq, Except.error.injEq] at h
      obtain ⟨p, hp⟩ := fetchPages_error_src (fg g) fuel 1 e' heq
      exact ⟨g, by simp, p, h ▸ hp⟩
    · next ps heq =>
      split at h
      · simp at h
      · next e' heq' =>
        simp only [Option.some.injEq, Except.error.injEq] at h
        obtain ⟨g', hg', p, hp⟩ := ih e' heq'
        exact ⟨g', by simp [hg'], p, h ▸ hp⟩
      · simp at h

/-- Walking `pagedServiceErr` from page `j + 1` towards the erroring
page `k` surfaces the error. -/
theorem fetchPages_pagedServiceErr {E P : Type} (pages : List (List P))
    (e : E) (k : Nat) (fuel : Nat) :
    ∀ j, j + 1 ≤ k → k ≤ pages.length → k - j ≤ fuel →
      fetchPages (pagedServiceErr pages e k) fuel (j + 1)
        = some (.error e) := by
  induction fuel with
  | zero => intro j h1 h2 h3; omega
  | succ fuel ih =>
    intro j h1 h2 h3
    by_cases hj : j + 1 = k
    · simp only [fetchPages, pagedServiceErr, if_pos hj]
    · have hlt : j + 1 < pages.length := by omega
      have hne2 : ¬ (j + 2 = 0) := by omega
      simp only [fetchPages, pagedServiceErr, if_neg hj, pagedService,
        if_pos hlt, if_neg hne2]
      have h12 : j + 2 = j + 1 + 1 := rfl
      rw [h12, ih (j + 1) (by omega) h2 (by omega)]

/-- The erroring sweep, started at page 1 as `loadRepos` does. -/
theorem fetchPages_pagedServiceErr_one {E P : Type} (pages : List (List P))
    (e : E) (k fuel : Nat) (h1 : 1 ≤ k) (h2 : k ≤ pages.length)
    (h3 : k ≤ fuel) :
    fetchPages (pagedServiceErr pages e k) fuel 1 = some (.error e) :=
  fetchPages_pagedServiceErr pages e k fuel 0 (by omega) h2 (by omega)

/-- During group-configured discovery, an erroring sweep of one group —
after any number of groups whose sweeps succeeded — aborts the whole
per-group loop with exactly that error: groups after the failing one are
never swept, and no partial collection is returned. -/
theorem loadGroups_error_of_first {G E P : Type}
    (fg : G → Nat → Except E (List P × Nat)) (fuel : Nat) :
    ∀ (pre : List G) (g : G) (post : List G) (e : E),
      (∀ g' ∈ pre, ∃ items, fetchPages (fg g') fuel 1 = some (.ok items)) →
      fetchPages (fg g) fuel 1 = some (.error e) →
      loadGroups fg fuel (pre ++ g :: post) = some (.error e) := by
  intro pre
  induction pre with
  | nil =>
    intro g post e _ hg
    simp only [List.nil_append, loadGroups]
    rw [hg]
  | cons p ps ih =>
    intro g post e hpre hg
    obtain ⟨items, hp⟩ := hpre p (by simp)
    simp only [List.cons_append, loadGroups, List.append_eq]
    rw [hp, ih g post e (fun g' hg' => hpre g' (by simp [hg'])) hg]

/-- C9: paginated discovery. With a well-behaved paginated listing
service, `loadRepos` pages until the next-page indicator is the sentinel
0 and returns the concatenation of all pages' items — across the
configured groups in order, or of the global listing when no group is
configured. When a fetched page errors, `loadRepos` returns exactly that
error — in global-listing mode, and likewise during any group's sweep
after successful predecessor groups, the later groups never being swept;
and any error result originates from a page fetch. No partial collection
is ever produced alongside or instead of an error. -/
theorem loadRepos_pagination (G E P : Type) :
    (∀ (groups : List G) (pagesOf : G → List (List P))
        (lp : Nat → Except E (List P × Nat)) (fuel : Nat),
      groups ≠ [] → (∀ g ∈ groups, (pagesOf g).length < fuel) →
      loadRepos groups (fun g => pagedService (pagesOf g)) lp fuel
        = some (.ok (groups.map (fun g => (pagesOf g).flatten)).flatten))
    ∧ (∀ (lg : G → Nat → Except E (List P × Nat)) (pages : List (List P))
          (fuel : Nat), pages.length < fuel →
        loadRepos ([] : List G) lg (pagedService pages) fuel
          = some (.ok pages.flatten))
    ∧ (∀ (lg : G → Nat → Except E (List P × Nat)) (pages : List (List P))
          (e : E) (k fuel : Nat), 1 ≤ k → k ≤ pages.length → k ≤ fuel →
        loadRepos ([] : List G) lg (pagedServiceErr pages e k) fuel
          = some (.error e))
    ∧ (∀ (pre post : List G) (g : G)
          (fg : G → Nat → Except E (List P × Nat))
          (fa : Nat → Except E (List P × Nat))
          (pagesOf : G → List (List P)) (errPages : List (List P))
          (e : E) (k fuel : Nat),
        (∀ g' ∈ pre, fg g' = pagedService (pagesOf g')) →
        (∀ g' ∈ pre, (pagesOf g').length < fuel) →
        fg g = pagedServiceErr errPages e k →
        1 ≤ k → k ≤ errPages.length → k ≤ fuel →
        loadRepos (pre ++ g :: post) fg fa fuel = some (.error e))
    ∧ (∀ (groups : List G) (fg : G → Nat → Except E (List P × Nat))
          (fa : Nat → Except E (List P × Nat)) (fuel : Nat) (e : E),
        loadRepos groups fg fa fuel = some (.error e) →
        (∃ g ∈ groups, ∃ p, fg g p = .error e)
          ∨ (groups = [] ∧ ∃ p, fa p = .error e)) := by
  refine ⟨?_, ?_, ?_, ?_, ?_⟩
  · intro groups pagesOf lp fuel hne h
    have hpos : groups.length > 0 := List.length_pos.mpr hne
    simp only [loadRepos, if_pos hpos]
    exact loadGroups_pagedService pagesOf fuel groups h
  · intro lg pages fuel h
    exact fetchPages_pagedService_one pages fuel h
  · intro lg pages e k fuel h1 h2 h3
    exact fetchPages_pagedServiceErr_one pages e k fuel h1 h2 h3
  · intro pre post g fg fa pagesOf errPages e k fuel hfg hlen hg h1 h2 h3
    have hpos : (pre ++ g :: post).length > 0 := by
      simp only [List.length_append, List.length_cons]
      omega
    simp only [loadRepos, if_pos hpos]
    refine loadGroups_error_of_first fg fuel pre g post e ?_ ?_
    · intro g' hg'
      refine ⟨(pagesOf g').flatten, ?_⟩
      rw [hfg g' hg']
      exact fetchPages_pagedService_one (pagesOf g') fuel (hlen g' hg')
    · rw [hg]
      exact fetchPages_pagedServiceErr_one errPages e k fuel h1 h2 h3
  · intro groups fg fa fuel e h
    cases groups with
    | nil =>
      exact Or.inr ⟨rfl, fetchPages_error_src fa fuel 1 e h⟩
    | cons g gs =>
      simp only [loadRepos, List.length_cons] at h
      rw [if_pos (Nat.succ_pos gs.length)] at h
      exact Or.inl (loadGroups_error_src fg fuel (g :: gs) e h)

theorem loadRepos_pagination_witness :
    (["groupA", "groupB"] ≠ ([] : List String)) ∧
    (∀ g ∈ ["groupA", "groupB"],
      ([[1, 2], [3]] : List (List Nat)).length < 3) ∧
    loadRepos ["groupA", "groupB"]
        (fun _ => pagedService (E := Unit) [[1, 2], [3]])
        (pagedService []) 3
      = some (.ok ((["groupA", "groupB"].map
          (fun _ => ([[1, 2], [3]] : List (List Nat)).flatten)).flatten)) ∧
    loadRepos (["gOK"] ++ "gErr" :: ["gAfter"])
        (fun g' => if g' = "gErr" then pagedServiceErr [[7]] 0 1
                   else pagedService [[5]])
        (pagedService ([] : List (List Nat))) 2
      = some (.error (0 : Nat)) :=
  ⟨by decide, by decide,
   (loadRepos_pagination String Unit Nat).1 ["groupA", "groupB"]
     (fun _ => [[1, 2], [3]]) (pagedService []) 3 (by decide) (by decide),
   (loadRepos_pagination String Nat Nat).2.2.2.1 ["gOK"] ["gAfter"] "gErr"
     (fun g' => if g' = "gErr" then pagedServiceErr [[7]] 0 1
                else pagedService [[5]])
     (pagedService []) (fun _ => [[5]]) [[7]] 0 1 2
     (fun g' hg' => by
       rw [List.mem_singleton] at hg'
       subst hg'
       rfl)
     (by decide) rfl (by decide) (by decide) (by decide)⟩

end LivegrepGitlabReindex
